import Mathlib

/-!
Verification of the frontmatter metadata normalizer of `mdxld-workers`
(`src/compiler/index.ts`): `processMetadata`, `extractWorkerMetadata`, and the
`config` re-merge performed by `compile`.  JavaScript values are modelled as
trees; objects are insertion-ordered association lists, with assignment
semantics (`setKey`) updating an existing key in place and appending fresh
keys, exactly as JS property assignment behaves on plain objects.  Property
keys are modelled as character lists (`List Char`), i.e. the underlying data
of the JS strings.
-/

set_option maxHeartbeats 1000000

namespace MdxldWorkers

/-- A JavaScript value as produced by the YAML frontmatter parser:
`undefined`, `null`, booleans, numbers, strings, arrays, plain objects. -/
inductive Value : Type where
  | vUndef : Value
  | vNull : Value
  | vBool : Bool → Value
  | vNum : Int → Value
  | vStr : String → Value
  | vArr : List Value → Value
  | vObj : List (List Char × Value) → Value

open Value

/-- An object's property list (insertion ordered, keys unique in practice). -/
abbrev Mapping := List (List Char × Value)

/-- JS truthiness. -/
def truthy : Value → Bool
  | vUndef => false
  | vNull => false
  | vBool b => b
  | vNum n => decide (n ≠ 0)
  | vStr s => decide (s ≠ "")
  | vArr _ => true
  | vObj _ => true

/-- `typeof v === 'object'` — true for `null`, arrays and objects. -/
def typeofObject : Value → Bool
  | vNull => true
  | vArr _ => true
  | vObj _ => true
  | _ => false

/-- First binding of a key in a property list. -/
def getKey : Mapping → List Char → Option Value
  | [], _ => none
  | (k', v') :: rest, k => if k' = k then some v' else getKey rest k

/-- JS property assignment `o[k] = v`: update in place if the key exists,
append otherwise. -/
def setKey : Mapping → List Char → Value → Mapping
  | [], k, v => [(k, v)]
  | (k', v') :: rest, k, v =>
    if k' = k then (k', v) :: rest else (k', v') :: setKey rest k v

/-- Property access through optional chaining (`x?.name`): only plain objects
expose named properties here; on every other value it yields `undefined`. -/
def getProp (v : Value) (k : List Char) : Option Value :=
  match v with
  | vObj fs => getKey fs k
  | _ => none

/-- The single-quote character (codepoint 39). -/
def squote : Char := Char.ofNat 39

/-- The double-quote character (codepoint 34). -/
def dquote : Char := Char.ofNat 34

/-- Line-feed (codepoint 10). -/
def lfChar : Char := Char.ofNat 10

/-- Carriage-return (codepoint 13). -/
def crChar : Char := Char.ofNat 13

/-- `key.replace(/^(['"])(.*)\1$/, '$2')`: strip one layer of surrounding
matching quotes.  The regex `.` does not match line terminators, and the
closing quote must equal the opening one. -/
def stripQuotesL : List Char → List Char
  | [] => []
  | c :: rest =>
    if (c = squote ∨ c = dquote) ∧ rest ≠ [] ∧ rest.getLast? = some c
        ∧ rest.dropLast.all (fun x => x ≠ lfChar ∧ x ≠ crChar) then
      rest.dropLast
    else c :: rest

/-- Does a key (already quote-stripped) carry a `@`/`$` sigil?  Mirrors
`cleanKey.match(/^[@$]/)`. -/
def pfxOf : List Char → Option Char
  | c :: _ => if c = '@' ∨ c = '$' then some c else none
  | [] => none

/-- Base name of a clean key: the key without its `@`/`$` sigil, if any. -/
def baseOf (cs : List Char) : List Char :=
  match cs with
  | c :: rest => if c = '@' ∨ c = '$' then rest else cs
  | [] => []

/-- `Object.entries` / object spread on an array: index-keyed entries. -/
def indexedEntries (xs : List Value) : Mapping :=
  xs.enum.map (fun p => ((Nat.repr p.1).data, p.2))

/-- `Object.entries(v)` for values of `typeof 'object'`: property lists for
objects, index entries for arrays, and a `TypeError` for `null`. -/
def jsEntries : Value → Except String Mapping
  | vObj fs => .ok fs
  | vArr xs => .ok (indexedEntries xs)
  | vNull => .error "TypeError: Cannot convert undefined or null to object"
  | _ => .ok []

/-- Own enumerable entries used by object spread `{...v}` (total: spreading a
primitive contributes nothing, spreading a string contributes its characters). -/
def spreadEntries : Value → Mapping
  | vObj fs => fs
  | vArr xs => indexedEntries xs
  | vStr s => s.data.enum.map (fun p => ((Nat.repr p.1).data, vStr ⟨[p.2]⟩))
  | _ => []

/-- Fold a list of entries into an object with JS assignment semantics. -/
def assignAll (base : Mapping) (es : Mapping) : Mapping :=
  es.foldl (fun acc kv => setKey acc kv.1 kv.2) base

/-- The object literal `{...a, ...b}`. -/
def mergeSpread (a b : Value) : Mapping :=
  assignAll (assignAll [] (spreadEntries a)) (spreadEntries b)

mutual

/-- `String(v)`: the JS string conversion used on `workerData.name`. -/
def jsToStr : Value → String
  | vUndef => "undefined"
  | vNull => "null"
  | vBool b => if b then "true" else "false"
  | vNum n => toString n
  | vStr s => s
  | vObj _ => "[object Object]"
  | vArr xs => jsArrStr xs

/-- `Array.prototype.toString`: comma-joined elements, `null`/`undefined`
elements become empty strings. -/
def jsArrStr : List Value → String
  | [] => ""
  | [x] =>
    match x with
    | vNull => ""
    | vUndef => ""
    | v => jsToStr v
  | x :: y :: xs =>
    (match x with
      | vNull => ""
      | vUndef => ""
      | v => jsToStr v) ++ "," ++ jsArrStr (y :: xs)

end

/-- One step of the `newContext` construction in the context special case:
`k === 'vocab'` is rewritten to `@vocab`; every other key — prefixed or not —
is copied unchanged. -/
def ctxStep (acc : Mapping) (kv : List Char × Value) : Mapping :=
  if kv.1 = "vocab".data then setKey acc "@vocab".data kv.2
  else if kv.1.head? = some '@' ∨ kv.1.head? = some '$' then setKey acc kv.1 kv.2
  else setKey acc kv.1 kv.2

/-- The context special case's rebuilt mapping (`newContext`). -/
def ctxRewrite (fs : Mapping) : Mapping := fs.foldl ctxStep []

/-- Lines 64–76 of the source: store the processed value under the clean key,
and — when the clean key is prefixed — also under the unprefixed and
alternate-sigil spellings. -/
def writeSpellings (cleanK : List Char) (pv : Value) (result : Mapping) : Mapping :=
  match cleanK with
  | c :: restK =>
    if c = '@' ∨ c = '$' then
      let other : Char := if c = '@' then '$' else '@'
      setKey (setKey (setKey result cleanK pv) restK pv) (other :: restK) pv
    else setKey result cleanK pv
  | [] => setKey result [] pv

/-- Lines 79–96: the context special case.  Note the JS pitfall that
`typeof null === 'object'`, so a `null` context reaches `Object.entries`
and throws. -/
def applyContextHandler (cleanK : List Char) (pv : Value) (result : Mapping) :
    Except String Mapping :=
  if (cleanK = "context".data ∨ cleanK = "@context".data ∨ cleanK = "$context".data)
      ∧ typeofObject pv then
    match jsEntries pv with
    | .error e => .error e
    | .ok es => .ok (setKey result "context".data (vObj (ctxRewrite es)))
  else .ok result

/-- Lines 99–103: the worker special case hoists a truthy `name` and a truthy
`routes` out of the worker value into the enclosing result. -/
def applyWorkerHandler (cleanK : List Char) (pv : Value) (result : Mapping) : Mapping :=
  if cleanK = "worker".data ∨ cleanK = "@worker".data ∨ cleanK = "$worker".data then
    let r1 :=
      match getProp pv "name".data with
      | some nv => if truthy nv then setKey result "name".data nv else result
      | none => result
    match getProp pv "routes".data with
    | some rv => if truthy rv then setKey r1 "routes".data rv else r1
    | none => r1
  else result

/-- Lines 106–108: the list special case wraps non-array values. -/
def applyListHandler (cleanK : List Char) (pv : Value) (result : Mapping) : Mapping :=
  if cleanK = "list".data ∨ cleanK = "@list".data ∨ cleanK = "$list".data then
    setKey result "list".data
      (match pv with
        | vArr xs => vArr xs
        | v => vArr [v])
  else result

mutual

/-- The body of `processMetadata`'s `for` loop over `Object.entries(data)`,
threading the `result` object. -/
def processEntries : Mapping → Mapping → Except String Mapping
  | [], result => .ok result
  | (k, v) :: rest, result =>
    match processOneValue v with
    | .error e => .error e
    | .ok pv =>
      let cleanK := stripQuotesL k
      let r1 := writeSpellings cleanK pv result
      match applyContextHandler cleanK pv r1 with
      | .error e => .error e
      | .ok r2 => processEntries rest (applyListHandler cleanK pv (applyWorkerHandler cleanK pv r2))

/-- `processedValue` (lines 58–62): deep-clone arrays, recursively process
non-null objects, pass every other value through. -/
def processOneValue : Value → Except String Value
  | vArr xs =>
    match cloneArray xs with
    | .error e => .error e
    | .ok ys => .ok (vArr ys)
  | vObj fs =>
    match processEntries fs [] with
    | .error e => .error e
    | .ok r => .ok (vObj r)
  | v => .ok v

/-- `cloneArray` (lines 43–48): recursive array clone that processes nested
objects with `processMetadata`. -/
def cloneArray : List Value → Except String (List Value)
  | [] => .ok []
  | x :: xs =>
    match processOneValue x with
    | .error e => .error e
    | .ok x' =>
      match cloneArray xs with
      | .error e => .error e
      | .ok xs' => .ok (x' :: xs')

end

/-- `processMetadata` (lines 37–112).  The guard on line 38 returns an empty
object for falsy or non-`'object'` values; arrays pass the guard and are
iterated through `Object.entries`. -/
def processMetadata (v : Value) : Except String Mapping :=
  if truthy v ∧ typeofObject v then
    match v with
    | vObj fs => processEntries fs []
    | vArr xs => processEntries (indexedEntries xs) []
    | _ => .ok []
  else .ok []

/-- JS `a || b` over possibly-absent property reads: the first operand if it
is present and truthy, otherwise the second (which may itself be absent). -/
def jsOr (a b : Option Value) : Option Value :=
  match a with
  | some v => if truthy v then some v else b
  | none => b

/-- The built-in default `config` (lines 124–129, also 367–372). -/
def defaultConfig : Value :=
  vObj [("memory".data, vNum 128), ("env".data, vObj [("NODE_ENV".data, vStr "production")])]

/-- The parsed document, as consumed by `extractWorkerMetadata`: the generic
frontmatter data bag (absent when there was no frontmatter), plus the typed
`type` and `context` attributes surfaced by the parser. -/
structure MDXLD where
  data : Option Value
  type : Value
  context : Value

/-- The caller-supplied `CompileOptions.worker` (`compatibilityDate` is never
read by the metadata extraction). -/
structure WorkerOpts where
  name : String
  routes : Option (List Value)

/-- The `if (workerData.name) metadata.name = String(workerData.name); if
(Array.isArray(workerData.routes)) ...; if (workerData.config && typeof ===
'object') metadata.config = {...metadata.config, ...workerData.config}` block,
shared verbatim by the `$worker`/`@worker` branch (lines 144–156) and the
`processedData.worker` branch (lines 157–171). -/
def applyWorkerData (wd : Value) (m : Mapping) : Mapping :=
  let m1 :=
    match getProp wd "name".data with
    | some nv => if truthy nv then setKey m "name".data (vStr (jsToStr nv)) else m
    | none => m
  let m2 :=
    match getProp wd "routes".data with
    | some rv =>
      match rv with
      | vArr xs => setKey m1 "routes".data (vArr xs)
      | _ => m1
    | none => m1
  match getProp wd "config".data with
  | some cv =>
    if truthy cv ∧ typeofObject cv then
      setKey m2 "config".data (vObj (mergeSpread ((getKey m2 "config".data).getD vUndef) cv))
    else m2
  | none => m2

/-- `extractWorkerMetadata` (lines 114–174): normalize the data bag, spread it
over the base defaults, overlay the parser's truthy `type`/`context`, apply
the caller options, then apply the worker block discovered in the metadata. -/
def extractWorkerMetadata (mdxld : MDXLD) (options : Option WorkerOpts) :
    Except String Mapping :=
  match processMetadata (mdxld.data.getD (vObj [])) with
  | .error e => .error e
  | .ok processedData =>
    let workerData :=
      jsOr (getKey processedData "$worker".data) (getKey processedData "@worker".data)
    let base : Mapping :=
      [("name".data, vStr ""), ("routes".data, vArr []), ("config".data, defaultConfig)]
    let m1 := assignAll base processedData
    let m2 := if truthy mdxld.type then setKey m1 "type".data mdxld.type else m1
    let m3 := if truthy mdxld.context then setKey m2 "context".data mdxld.context else m2
    let m4 :=
      match options with
      | some o =>
        let nVal := if o.name ≠ "" then vStr o.name else (getKey m3 "name".data).getD vUndef
        let mA := setKey m3 "name".data nVal
        let rVal :=
          match o.routes with
          | some rs => vArr rs
          | none => (getKey mA "routes".data).getD vUndef
        setKey mA "routes".data rVal
      | none => m3
    let m5 :=
      match workerData with
      | some wd =>
        if truthy wd then applyWorkerData wd m4
        else
          match getKey processedData "worker".data with
          | some w => if truthy w ∧ typeofObject w then applyWorkerData w m4 else m4
          | none => m4
      | none =>
        match getKey processedData "worker".data with
        | some w => if truthy w ∧ typeofObject w then applyWorkerData w m4 else m4
        | none => m4
    .ok m5

/-- The `config` re-merge performed by `compile` when building the worker
context (lines 363–376): `{memory: 128, env: {NODE_ENV: 'production'},
...(metadata.config || {})}`. -/
def finalConfig (metadata : Mapping) : Mapping :=
  let base : Mapping :=
    [("memory".data, vNum 128), ("env".data, vObj [("NODE_ENV".data, vStr "production")])]
  let cfg :=
    match getKey metadata "config".data with
    | some c => if truthy c then c else vObj []
    | none => vObj []
  assignAll base (spreadEntries cfg)

/-- The `config` of the final worker context, for a given document and
options: `extractWorkerMetadata` followed by `compile`'s re-merge. -/
def pipelineConfig (mdxld : MDXLD) (options : Option WorkerOpts) :
    Except String Mapping :=
  match extractWorkerMetadata mdxld options with
  | .error e => .error e
  | .ok m => .ok (finalConfig m)

/-- The `name` field of the extracted metadata, when extraction succeeds. -/
def metaName (mdxld : MDXLD) (options : Option WorkerOpts) : Option Value :=
  match extractWorkerMetadata mdxld options with
  | .error _ => none
  | .ok m => getKey m "name".data

/-- The `routes` field of the extracted metadata, when extraction succeeds. -/
def metaRoutes (mdxld : MDXLD) (options : Option WorkerOpts) : Option Value :=
  match extractWorkerMetadata mdxld options with
  | .error _ => none
  | .ok m => getKey m "routes".data

/-! ### Specification helpers (used to state properties, not part of the code) -/

/-- Scalar (non-array, non-object) values: these pass through processing. -/
def isScalar : Value → Bool
  | vArr _ => false
  | vObj _ => false
  | _ => true

/-- Is the value the JS `null`? -/
def isNull : Value → Bool
  | vNull => true
  | _ => false

/-- The alternate sigil (`@` ↔ `$`). -/
def otherPfx (c : Char) : Char := if c = '@' then '$' else '@'

/-- A key is present in a property list. -/
def hasKey (m : Mapping) (k : List Char) : Prop := (getKey m k).isSome = true

/-- The processing of a single `(key, value)` entry: clean the key, process
the value, store the spellings, run the three special-case handlers. -/
def entryStep (k0 : List Char) (v0 : Value) (acc : Mapping) : Except String Mapping :=
  match processOneValue v0 with
  | .error e => .error e
  | .ok pv =>
    let ck := stripQuotesL k0
    match applyContextHandler ck pv (writeSpellings ck pv acc) with
    | .error e => .error e
    | .ok r2 => .ok (applyListHandler ck pv (applyWorkerHandler ck pv r2))

/-- The expected contribution of one flat entry (clean key, scalar value) to
the result: a prefixed key yields all three spellings, and a `list` base is
wrapped into a one-element array under the unprefixed spelling. -/
def flatBlock (k : List Char) (v : Value) : Mapping :=
  match k with
  | c :: b =>
    if c = '@' ∨ c = '$' then
      if b = "list".data then
        [(k, v), (b, vArr [v]), (otherPfx c :: b, v)]
      else
        [(k, v), (b, v), (otherPfx c :: b, v)]
    else
      if k = "list".data then [(k, vArr [v])] else [(k, v)]
  | [] => [([], v)]

/-- Expected output of a full flat pass: concatenation of per-entry blocks. -/
def flatBlocks : Mapping → Mapping
  | [] => []
  | (k, v) :: rest => flatBlock k v ++ flatBlocks rest

/-- A flat entry: scalar value, quote-free key and base, unprefixed base, and
no `null` bound to a `context`-classified key (which would throw). -/
def flatEntryOK (kv : List Char × Value) : Prop :=
  isScalar kv.2 = true ∧
  stripQuotesL kv.1 = kv.1 ∧
  stripQuotesL (baseOf kv.1) = baseOf kv.1 ∧
  pfxOf (baseOf kv.1) = none ∧
  (baseOf kv.1 = "context".data → isNull kv.2 = false)

/-- A flat mapping: every entry flat, base names pairwise distinct. -/
def flatOK (fs : Mapping) : Prop :=
  (∀ kv ∈ fs, flatEntryOK kv) ∧ (fs.map (fun kv => baseOf kv.1)).Nodup

/-- Flat-entry condition is decidable (used by concrete witnesses). -/
instance (kv : List Char × Value) : Decidable (flatEntryOK kv) := by
  unfold flatEntryOK
  infer_instance

/-- Flatness of a mapping is decidable (used by concrete witnesses). -/
instance (fs : Mapping) : Decidable (flatOK fs) := by
  unfold flatOK
  infer_instance

/-- The per-key rewriting the spec expects inside a `context` mapping. -/
def vocabKeyMap (k : List Char) : List Char :=
  if k = "vocab".data then "@vocab".data else k

/-! ### Basic lemmas about `getKey`/`setKey` and Boolean helpers -/

@[simp] theorem getKey_nil (k : List Char) : getKey [] k = none := rfl

@[simp] theorem truthy_undef : truthy vUndef = false := rfl

@[simp] theorem truthy_null : truthy vNull = false := rfl

@[simp] theorem truthy_obj (fs : Mapping) : truthy (vObj fs) = true := rfl

@[simp] theorem truthy_arr (xs : List Value) : truthy (vArr xs) = true := rfl

theorem truthy_str (s : String) : truthy (vStr s) = decide (s ≠ "") := rfl

@[simp] theorem typeofObject_obj (fs : Mapping) : typeofObject (vObj fs) = true := rfl

@[simp] theorem typeofObject_arr (xs : List Value) : typeofObject (vArr xs) = true := rfl

theorem getKey_setKey_self (m : Mapping) (k : List Char) (v : Value) :
    getKey (setKey m k v) k = some v := by
  induction m with
  | nil => simp [setKey, getKey]
  | cons kv rest ih =>
    by_cases h : kv.1 = k
    · simp [setKey, getKey, h]
    · simp [setKey, getKey, h, ih]

theorem getKey_setKey_ne (m : Mapping) (k k' : List Char) (v : Value) (h : k' ≠ k) :
    getKey (setKey m k v) k' = getKey m k' := by
  have h' : ¬k = k' := fun hkk => h hkk.symm
  induction m with
  | nil => simp [setKey, getKey, h, h']
  | cons kv rest ih =>
    by_cases hk : kv.1 = k
    · simp only [setKey, hk, if_pos rfl, getKey]
      simp [h', h]
    · simp [setKey, getKey, hk, ih]

theorem setKey_append (m : Mapping) (k : List Char) (v : Value)
    (h : getKey m k = none) : setKey m k v = m ++ [(k, v)] := by
  induction m with
  | nil => simp [setKey]
  | cons kv rest ih =>
    by_cases hk : kv.1 = k
    · simp [getKey, hk] at h
    · simp only [getKey, hk, if_neg hk] at h
      simp [setKey, hk, ih h]

theorem setKey_idem_val (m : Mapping) (k : List Char) (v : Value)
    (h : getKey m k = some v) : setKey m k v = m := by
  induction m with
  | nil => simp [getKey] at h
  | cons kv rest ih =>
    by_cases hk : kv.1 = k
    · simp only [getKey, hk, if_pos rfl, Option.some.injEq] at h
      cases kv with
      | mk k1 v1 => simp_all [setKey]
    · simp only [getKey, hk, if_neg hk] at h
      simp [setKey, hk, ih h]

theorem getKey_append (m m' : Mapping) (k : List Char) :
    getKey (m ++ m') k =
      (match getKey m k with
        | some v => some v
        | none => getKey m' k) := by
  induction m with
  | nil => simp [getKey]
  | cons kv rest ih =>
    by_cases hk : kv.1 = k
    · simp [getKey, hk]
    · simp [getKey, hk, ih]

theorem getKey_append_none (m m' : Mapping) (k : List Char)
    (h1 : getKey m k = none) (h2 : getKey m' k = none) :
    getKey (m ++ m') k = none := by
  rw [getKey_append, h1]
  exact h2

theorem getKey_singleton (a k : List Char) (b : Value) :
    getKey [(a, b)] k = if a = k then some b else none := by
  simp [getKey]

theorem hasKey_setKey_self (m : Mapping) (k : List Char) (v : Value) :
    hasKey (setKey m k v) k := by
  simp [hasKey, getKey_setKey_self]

theorem hasKey_setKey_mono (m : Mapping) (k k' : List Char) (v : Value)
    (h : hasKey m k') : hasKey (setKey m k v) k' := by
  by_cases hk : k' = k
  · subst hk; exact hasKey_setKey_self m k' v
  · simpa [hasKey, getKey_setKey_ne m k k' v hk] using h

/-! ### Unfolding lemmas for the per-entry stages -/

theorem writeSpellings_unpfx (cs : List Char) (pv : Value) (res : Mapping)
    (h : pfxOf cs = none) :
    writeSpellings cs pv res = setKey res cs pv := by
  cases cs with
  | nil => rfl
  | cons c rest =>
    simp only [pfxOf] at h
    by_cases hc : c = '@' ∨ c = '$'
    · simp [hc] at h
    · simp [writeSpellings, hc]

theorem writeSpellings_pfx (c : Char) (b : List Char) (pv : Value) (res : Mapping)
    (h : c = '@' ∨ c = '$') :
    writeSpellings (c :: b) pv res =
      setKey (setKey (setKey res (c :: b) pv) b pv) (otherPfx c :: b) pv := by
  simp [writeSpellings, h, otherPfx]

theorem applyContextHandler_skip_notObj (ck : List Char) (pv : Value) (res : Mapping)
    (h : typeofObject pv = false) :
    applyContextHandler ck pv res = .ok res := by
  simp [applyContextHandler, h]

theorem applyContextHandler_skip_key (ck : List Char) (pv : Value) (res : Mapping)
    (h : ck ≠ "context".data ∧ ck ≠ "@context".data ∧ ck ≠ "$context".data) :
    applyContextHandler ck pv res = .ok res := by
  simp [applyContextHandler, h.1, h.2.1, h.2.2]

theorem getProp_nonobj (pv : Value) (k : List Char) (h : ∀ fs, pv ≠ vObj fs) :
    getProp pv k = none := by
  cases pv <;> simp [getProp]
  exact absurd rfl (h _)

theorem applyWorkerHandler_nonobj (ck : List Char) (pv : Value) (res : Mapping)
    (h : ∀ fs, pv ≠ vObj fs) :
    applyWorkerHandler ck pv res = res := by
  simp [applyWorkerHandler, getProp_nonobj pv _ h]

theorem applyWorkerHandler_skip_key (ck : List Char) (pv : Value) (res : Mapping)
    (h : ck ≠ "worker".data ∧ ck ≠ "@worker".data ∧ ck ≠ "$worker".data) :
    applyWorkerHandler ck pv res = res := by
  simp [applyWorkerHandler, h.1, h.2.1, h.2.2]

theorem applyListHandler_skip_key (ck : List Char) (pv : Value) (res : Mapping)
    (h : ck ≠ "list".data ∧ ck ≠ "@list".data ∧ ck ≠ "$list".data) :
    applyListHandler ck pv res = res := by
  simp [applyListHandler, h.1, h.2.1, h.2.2]

theorem processOneValue_scalar (v : Value) (h : isScalar v = true) :
    processOneValue v = .ok v := by
  cases v <;> simp_all [isScalar, processOneValue]

theorem cloneArray_scalars (xs : List Value) (h : ∀ x ∈ xs, isScalar x = true) :
    cloneArray xs = .ok xs := by
  induction xs with
  | nil => rfl
  | cons x rest ih =>
    have hx := processOneValue_scalar x (h x (by simp))
    have hr := ih (fun y hy => h y (by simp [hy]))
    simp [cloneArray, hx, hr]

theorem cloneArray_length (xs ys : List Value) (h : cloneArray xs = .ok ys) :
    ys.length = xs.length := by
  induction xs generalizing ys with
  | nil => simp [cloneArray] at h; simp [← h]
  | cons x rest ih =>
    simp only [cloneArray] at h
    cases hx : processOneValue x with
    | error e => rw [hx] at h; simp at h
    | ok x' =>
      rw [hx] at h
      cases hr : cloneArray rest with
      | error e => rw [hr] at h; simp at h
      | ok rest' =>
        rw [hr] at h
        simp only [Except.ok.injEq] at h
        subst h
        simp [ih rest' hr]

/-! ### The per-entry step and sequencing lemmas -/

theorem processEntries_nil (acc : Mapping) : processEntries [] acc = .ok acc := rfl

theorem processEntries_cons (k0 : List Char) (v0 : Value) (rest acc : Mapping) :
    processEntries ((k0, v0) :: rest) acc =
      match entryStep k0 v0 acc with
      | .error e => .error e
      | .ok acc' => processEntries rest acc' := by
  simp only [processEntries, entryStep]
  cases processOneValue v0 with
  | error e => rfl
  | ok pv =>
    simp only
    cases applyContextHandler (stripQuotesL k0) pv
        (writeSpellings (stripQuotesL k0) pv acc) with
    | error e => rfl
    | ok r2 => rfl

theorem processEntries_append (xs ys acc : Mapping) :
    processEntries (xs ++ ys) acc =
      match processEntries xs acc with
      | .error e => .error e
      | .ok m => processEntries ys m := by
  induction xs generalizing acc with
  | nil => simp [processEntries_nil]
  | cons kv rest ih =>
    cases kv with
    | mk k0 v0 =>
      rw [List.cons_append, processEntries_cons, processEntries_cons]
      cases entryStep k0 v0 acc with
      | error e => rfl
      | ok acc' => exact ih acc'

/-! ### Key-presence monotonicity -/

theorem hasKey_writeSpellings_mono (cs : List Char) (pv : Value) (res : Mapping)
    (k : List Char) (h : hasKey res k) : hasKey (writeSpellings cs pv res) k := by
  unfold writeSpellings
  split
  · split
    · exact hasKey_setKey_mono _ _ _ _
        (hasKey_setKey_mono _ _ _ _ (hasKey_setKey_mono _ _ _ _ h))
    · exact hasKey_setKey_mono _ _ _ _ h
  · exact hasKey_setKey_mono _ _ _ _ h

theorem hasKey_applyContextHandler_mono (ck : List Char) (pv : Value)
    (res res' : Mapping) (k : List Char)
    (hres : applyContextHandler ck pv res = .ok res') (h : hasKey res k) :
    hasKey res' k := by
  unfold applyContextHandler at hres
  split at hres
  · split at hres
    · exact absurd hres (by simp)
    · simp only [Except.ok.injEq] at hres
      exact hres ▸ hasKey_setKey_mono _ _ _ _ h
  · simp only [Except.ok.injEq] at hres
    exact hres ▸ h

theorem hasKey_applyWorkerHandler_mono (ck : List Char) (pv : Value)
    (res : Mapping) (k : List Char) (h : hasKey res k) :
    hasKey (applyWorkerHandler ck pv res) k := by
  have stage : ∀ (r : Mapping) (p : List Char) (o : Option Value), hasKey r k →
      hasKey (match o with
        | some nv => if truthy nv = true then setKey r p nv else r
        | none => r) k := by
    intro r p o hr
    cases o with
    | none => exact hr
    | some nv =>
      by_cases ht : truthy nv = true
      · simpa [ht] using hasKey_setKey_mono r p k nv hr
      · simpa [ht] using hr
  unfold applyWorkerHandler
  split
  · exact stage _ "routes".data (getProp pv "routes".data)
      (stage _ "name".data (getProp pv "name".data) h)
  · exact h

theorem hasKey_applyListHandler_mono (ck : List Char) (pv : Value)
    (res : Mapping) (k : List Char) (h : hasKey res k) :
    hasKey (applyListHandler ck pv res) k := by
  unfold applyListHandler
  split
  · exact hasKey_setKey_mono _ _ _ _ h
  · exact h

theorem hasKey_processEntries_mono (fs : Mapping) (acc res : Mapping) (k : List Char)
    (hres : processEntries fs acc = .ok res) (h : hasKey acc k) : hasKey res k := by
  induction fs generalizing acc with
  | nil =>
    simp only [processEntries, Except.ok.injEq] at hres
    exact hres ▸ h
  | cons kv rest ih =>
    cases kv with
    | mk k0 v0 =>
      simp only [processEntries] at hres
      cases hpv : processOneValue v0 with
      | error e => rw [hpv] at hres; exact absurd hres (by simp)
      | ok pv =>
        rw [hpv] at hres
        simp only at hres
        cases hctx : applyContextHandler (stripQuotesL k0) pv
            (writeSpellings (stripQuotesL k0) pv acc) with
        | error e => rw [hctx] at hres; exact absurd hres (by simp)
        | ok r2 =>
          rw [hctx] at hres
          simp only at hres
          have h1 := hasKey_writeSpellings_mono (stripQuotesL k0) pv acc k h
          have h2 := hasKey_applyContextHandler_mono _ _ _ _ _ hctx h1
          have h3 := hasKey_applyWorkerHandler_mono (stripQuotesL k0) pv r2 k h2
          have h4 := hasKey_applyListHandler_mono (stripQuotesL k0) pv _ k h3
          exact ih _ hres h4

theorem hasKey_writeSpellings_self (cs : List Char) (pv : Value) (res : Mapping) :
    hasKey (writeSpellings cs pv res) cs := by
  unfold writeSpellings
  split
  · split
    · exact hasKey_setKey_mono _ _ _ _
        (hasKey_setKey_mono _ _ _ _ (hasKey_setKey_self _ _ _))
    · exact hasKey_setKey_self _ _ _
  · exact hasKey_setKey_self _ _ _

theorem hasKey_writeSpellings_triple (c : Char) (b : List Char) (pv : Value) (res : Mapping)
    (hc : c = '@' ∨ c = '$') :
    hasKey (writeSpellings (c :: b) pv res) b ∧
    hasKey (writeSpellings (c :: b) pv res) ('@' :: b) ∧
    hasKey (writeSpellings (c :: b) pv res) ('$' :: b) := by
  rw [writeSpellings_pfx c b pv res hc]
  rcases hc with hc | hc <;> subst hc <;> simp only [otherPfx] <;> norm_num
  · exact ⟨hasKey_setKey_mono _ _ _ _ (hasKey_setKey_self _ _ _),
      hasKey_setKey_mono _ _ _ _ (hasKey_setKey_mono _ _ _ _ (hasKey_setKey_self _ _ _)),
      hasKey_setKey_self _ _ _⟩
  · exact ⟨hasKey_setKey_mono _ _ _ _ (hasKey_setKey_self _ _ _),
      hasKey_setKey_self _ _ _,
      hasKey_setKey_mono _ _ _ _ (hasKey_setKey_mono _ _ _ _ (hasKey_setKey_self _ _ _))⟩

theorem hasKey_entryStep_mono (k0 : List Char) (v0 : Value) (acc acc' : Mapping)
    (k : List Char) (hstep : entryStep k0 v0 acc = .ok acc') (h : hasKey acc k) :
    hasKey acc' k := by
  unfold entryStep at hstep
  cases hpv : processOneValue v0 with
  | error e => rw [hpv] at hstep; exact absurd hstep (by simp)
  | ok pv =>
    rw [hpv] at hstep
    simp only at hstep
    cases hctx : applyContextHandler (stripQuotesL k0) pv
        (writeSpellings (stripQuotesL k0) pv acc) with
    | error e => rw [hctx] at hstep; exact absurd hstep (by simp)
    | ok r2 =>
      rw [hctx] at hstep
      simp only [Except.ok.injEq] at hstep
      subst hstep
      exact hasKey_applyListHandler_mono _ _ _ _
        (hasKey_applyWorkerHandler_mono _ _ _ _
          (hasKey_applyContextHandler_mono _ _ _ _ _ hctx
            (hasKey_writeSpellings_mono _ _ _ _ h)))

theorem hasKey_entryStep_writes (k0 : List Char) (v0 : Value) (acc acc' : Mapping)
    (hstep : entryStep k0 v0 acc = .ok acc') :
    hasKey acc' (stripQuotesL k0) ∧
    (∀ c b, stripQuotesL k0 = c :: b → (c = '@' ∨ c = '$') →
      hasKey acc' b ∧ hasKey acc' ('@' :: b) ∧ hasKey acc' ('$' :: b)) := by
  unfold entryStep at hstep
  cases hpv : processOneValue v0 with
  | error e => rw [hpv] at hstep; exact absurd hstep (by simp)
  | ok pv =>
    rw [hpv] at hstep
    simp only at hstep
    cases hctx : applyContextHandler (stripQuotesL k0) pv
        (writeSpellings (stripQuotesL k0) pv acc) with
    | error e => rw [hctx] at hstep; exact absurd hstep (by simp)
    | ok r2 =>
      rw [hctx] at hstep
      simp only [Except.ok.injEq] at hstep
      subst hstep
      have push : ∀ k : List Char,
          hasKey (writeSpellings (stripQuotesL k0) pv acc) k →
          hasKey (applyListHandler (stripQuotesL k0) pv
            (applyWorkerHandler (stripQuotesL k0) pv r2)) k := by
        intro k hk
        exact hasKey_applyListHandler_mono _ _ _ _
          (hasKey_applyWorkerHandler_mono _ _ _ _
            (hasKey_applyContextHandler_mono _ _ _ _ _ hctx hk))
      refine ⟨push _ (hasKey_writeSpellings_self _ _ _), ?_⟩
      intro c b hcb hc
      have htr := hasKey_writeSpellings_triple c b pv acc hc
      exact ⟨push _ (hcb.symm ▸ htr.1), push _ (hcb.symm ▸ htr.2.1),
        push _ (hcb.symm ▸ htr.2.2)⟩

theorem processEntries_writes_spellings (fs : Mapping) : ∀ (acc res : Mapping),
    processEntries fs acc = .ok res → ∀ k v, (k, v) ∈ fs →
    hasKey res (stripQuotesL k) ∧
    (∀ c b, stripQuotesL k = c :: b → (c = '@' ∨ c = '$') →
      hasKey res b ∧ hasKey res ('@' :: b) ∧ hasKey res ('$' :: b)) := by
  induction fs with
  | nil => intro acc res _ k v hmem; exact absurd hmem (by simp)
  | cons kv rest ih =>
    intro acc res hres k v hmem
    cases kv with
    | mk k0 v0 =>
      rw [processEntries_cons] at hres
      cases hstep : entryStep k0 v0 acc with
      | error e => rw [hstep] at hres; exact absurd hres (by simp)
      | ok acc' =>
        rw [hstep] at hres
        simp only at hres
        rcases List.mem_cons.mp hmem with hhead | htail
        · obtain ⟨hk0, hv0⟩ := Prod.mk.inj hhead
          subst hk0
          have hw := hasKey_entryStep_writes k v0 acc acc' hstep
          refine ⟨hasKey_processEntries_mono rest acc' res _ hres hw.1, ?_⟩
          intro c b hcb hc
          exact ⟨hasKey_processEntries_mono rest acc' res _ hres ((hw.2 c b hcb hc).1),
            hasKey_processEntries_mono rest acc' res _ hres ((hw.2 c b hcb hc).2.1),
            hasKey_processEntries_mono rest acc' res _ hres ((hw.2 c b hcb hc).2.2)⟩
        · exact ih acc' res hres k v htail

/-! ### The context rewrite as a key map -/

theorem ctxStep_eq_setKey (acc : Mapping) (kv : List Char × Value) :
    ctxStep acc kv = setKey acc (vocabKeyMap kv.1) kv.2 := by
  by_cases h : kv.1 = "vocab".data
  · simp [ctxStep, vocabKeyMap, h]
  · simp only [ctxStep, vocabKeyMap, h, if_neg h]
    exact ite_self _

theorem foldl_ctxStep_append (fs : Mapping) : ∀ acc : Mapping,
    (∀ kv ∈ fs, getKey acc (vocabKeyMap kv.1) = none) →
    ((fs.map (fun kv => vocabKeyMap kv.1)).Nodup) →
    fs.foldl ctxStep acc = acc ++ fs.map (fun kv => (vocabKeyMap kv.1, kv.2)) := by
  induction fs with
  | nil => intro acc _ _; simp
  | cons kv rest ih =>
    intro acc hnone hnd
    have hhead : getKey acc (vocabKeyMap kv.1) = none := hnone kv (by simp)
    have hstep : ctxStep acc kv = acc ++ [(vocabKeyMap kv.1, kv.2)] := by
      rw [ctxStep_eq_setKey, setKey_append _ _ _ hhead]
    simp only [List.foldl_cons, hstep]
    rw [ih (acc ++ [(vocabKeyMap kv.1, kv.2)]) ?_ ?_]
    · simp
    · intro kv' hkv'
      apply getKey_append_none
      · exact hnone kv' (by simp [hkv'])
      · rw [getKey_singleton]
        have hne : vocabKeyMap kv.1 ≠ vocabKeyMap kv'.1 := by
          simp only [List.map_cons, List.nodup_cons] at hnd
          intro heq
          exact hnd.1 (heq ▸ List.mem_map_of_mem _ hkv')
        simp [hne]
    · simp only [List.map_cons, List.nodup_cons] at hnd
      exact hnd.2

theorem ctxRewrite_map (fs : Mapping)
    (hnd : (fs.map (fun kv => vocabKeyMap kv.1)).Nodup) :
    ctxRewrite fs = fs.map (fun kv => (vocabKeyMap kv.1, kv.2)) := by
  have := foldl_ctxStep_append fs [] (by intro kv _; simp) hnd
  simpa [ctxRewrite] using this

/-! ### Flat mappings: blocks, first pass, and re-processing -/

theorem scalar_ne_obj (v : Value) (h : isScalar v = true) : ∀ fs, v ≠ vObj fs := by
  intro fs heq; subst heq; simp [isScalar] at h

theorem scalar_nonnull_typeof (v : Value) (h : isScalar v = true)
    (hn : isNull v = false) : typeofObject v = false := by
  cases v <;> simp_all [isScalar, isNull, typeofObject]

theorem listWrap_scalar (v : Value) (h : isScalar v = true) :
    (match v with | vArr xs => vArr xs | w => vArr [w]) = vArr [v] := by
  cases v <;> first | rfl | simp [isScalar] at h

theorem otherPfx_ne (c : Char) (hc : c = '@' ∨ c = '$') : otherPfx c ≠ c := by
  rcases hc with hc | hc <;> subst hc <;> decide

theorem otherPfx_mem (c : Char) (hc : c = '@' ∨ c = '$') :
    otherPfx c = '@' ∨ otherPfx c = '$' := by
  rcases hc with hc | hc <;> subst hc <;> decide

theorem otherPfx_invol (c : Char) (hc : c = '@' ∨ c = '$') :
    otherPfx (otherPfx c) = c := by
  rcases hc with hc | hc <;> subst hc <;> decide

theorem ne_of_pfx_none (k : List Char) (h : pfxOf k = none) (c : Char) (b : List Char)
    (hc : c = '@' ∨ c = '$') : k ≠ c :: b := by
  intro heq
  subst heq
  simp [pfxOf, hc] at h

theorem stripQuotes_sigil (c : Char) (b : List Char) (hc : c = '@' ∨ c = '$') :
    stripQuotesL (c :: b) = c :: b := by
  rcases hc with hc | hc <;> subst hc <;> simp [stripQuotesL, squote, dquote]

theorem setKey_append_right (m m' : Mapping) (k : List Char) (v : Value)
    (h : getKey m k = none) : setKey (m ++ m') k v = m ++ setKey m' k v := by
  induction m with
  | nil => simp
  | cons kv rest ih =>
    by_cases hk : kv.1 = k
    · simp [getKey, hk] at h
    · simp only [getKey, hk, if_neg hk] at h
      simp [setKey, hk, ih h]

theorem getKey_pair_ne (a k : List Char) (b : Value) (h : a ≠ k) :
    getKey [(a, b)] k = none := by
  simp [getKey, h]

theorem cons_ne_of_head (c c' : Char) (b b' : List Char) (h : c ≠ c') :
    c :: b ≠ c' :: b' := by
  intro heq
  exact h (List.cons.inj heq).1

theorem applyListHandler_fire (ck : List Char) (pv : Value) (res : Mapping)
    (h : ck = "list".data ∨ ck = "@list".data ∨ ck = "$list".data)
    (hsc : isScalar pv = true) :
    applyListHandler ck pv res = setKey res "list".data (vArr [pv]) := by
  unfold applyListHandler
  rw [if_pos h]
  cases pv <;> first | rfl | simp [isScalar] at hsc

theorem applyListHandler_fire_arr (ck : List Char) (xs : List Value) (res : Mapping)
    (h : ck = "list".data ∨ ck = "@list".data ∨ ck = "$list".data) :
    applyListHandler ck (vArr xs) res = setKey res "list".data (vArr xs) := by
  unfold applyListHandler
  rw [if_pos h]

theorem entryStep_flat (k : List Char) (v : Value) (acc : Mapping)
    (hok : flatEntryOK (k, v))
    (hd : ∀ s, (s = baseOf k ∨ s = '@' :: baseOf k ∨ s = '$' :: baseOf k) →
      getKey acc s = none) :
    entryStep k v acc = .ok (acc ++ flatBlock k v) := by
  obtain ⟨hsc, hq, hbq, hbp, hctxnull⟩ := hok
  simp only at hsc hq hbq hbp hctxnull
  unfold entryStep
  rw [processOneValue_scalar v hsc]
  simp only [hq]
  cases k with
  | nil =>
    have hwr : writeSpellings [] v acc = acc ++ [([], v)] := by
      rw [show writeSpellings [] v acc = setKey acc [] v from rfl,
        setKey_append _ _ _ (hd [] (Or.inl rfl))]
    rw [hwr, applyContextHandler_skip_key _ _ _ ⟨by simp, by simp, by simp⟩]
    simp only []
    rw [applyWorkerHandler_nonobj _ _ _ (scalar_ne_obj v hsc),
      applyListHandler_skip_key _ _ _ ⟨by simp, by simp, by simp⟩]
    rfl
  | cons c b =>
    by_cases hc : c = '@' ∨ c = '$'
    · -- prefixed key: all three spellings are written
      have hbase : baseOf (c :: b) = b := by simp [baseOf, hc]
      rw [hbase] at hd hbq hbp hctxnull
      have hself : getKey acc (c :: b) = none := by
        rcases hc with h | h <;> subst h
        · exact hd _ (Or.inr (Or.inl rfl))
        · exact hd _ (Or.inr (Or.inr rfl))
      have hother : getKey acc (otherPfx c :: b) = none := by
        rcases otherPfx_mem c hc with h | h <;> rw [h]
        · exact hd _ (Or.inr (Or.inl rfl))
        · exact hd _ (Or.inr (Or.inr rfl))
      have h2 : getKey (acc ++ [(c :: b, v)]) b = none :=
        getKey_append_none _ _ _ (hd b (Or.inl rfl))
          (getKey_pair_ne _ _ _ (List.cons_ne_self c b))
      have h3 : getKey ((acc ++ [(c :: b, v)]) ++ [(b, v)]) (otherPfx c :: b) = none :=
        getKey_append_none _ _ _
          (getKey_append_none _ _ _ hother
            (getKey_pair_ne _ _ _ (cons_ne_of_head _ _ _ _ (otherPfx_ne c hc).symm)))
          (getKey_pair_ne _ _ _ (List.cons_ne_self (otherPfx c) b).symm)
      have hws : writeSpellings (c :: b) v acc =
          acc ++ [(c :: b, v), (b, v), (otherPfx c :: b, v)] := by
        rw [writeSpellings_pfx _ _ _ _ hc, setKey_append _ _ _ hself,
          setKey_append _ _ _ h2, setKey_append _ _ _ h3]
        simp
      rw [hws]
      have hctxskip : applyContextHandler (c :: b) v
          (acc ++ [(c :: b, v), (b, v), (otherPfx c :: b, v)]) =
          .ok (acc ++ [(c :: b, v), (b, v), (otherPfx c :: b, v)]) := by
        by_cases hnull : isNull v = true
        · have hbc : b ≠ "context".data := by
            intro hbceq
            rw [hctxnull hbceq] at hnull
            exact Bool.false_ne_true hnull
          apply applyContextHandler_skip_key
          rcases hc with h | h <;> subst h <;>
            exact ⟨by simp, by simp [hbc], by simp [hbc]⟩
        · exact applyContextHandler_skip_notObj _ _ _
            (scalar_nonnull_typeof v hsc (by simpa using hnull))
      rw [hctxskip]
      simp only []
      rw [applyWorkerHandler_nonobj _ _ _ (scalar_ne_obj v hsc)]
      by_cases hl : b = "list".data
      · -- prefixed list key: the unprefixed spelling is wrapped in place
        subst hl
        have hfire : applyListHandler (c :: "list".data) v
            (acc ++ [(c :: "list".data, v), ("list".data, v),
              (otherPfx c :: "list".data, v)]) =
            acc ++ [(c :: "list".data, v), ("list".data, vArr [v]),
              (otherPfx c :: "list".data, v)] := by
          rw [applyListHandler_fire _ _ _ (by rcases hc with h | h <;> subst h <;> simp) hsc,
            setKey_append_right _ _ _ _ (hd _ (Or.inl rfl))]
          congr 1
          rw [show ([(c :: "list".data, v), ("list".data, v),
              (otherPfx c :: "list".data, v)] : Mapping) =
            [(c :: "list".data, v)] ++ [("list".data, v),
              (otherPfx c :: "list".data, v)] from rfl,
            setKey_append_right _ _ _ _
              (getKey_pair_ne _ _ _ (List.cons_ne_self c "list".data))]
          simp [setKey]
        rw [hfire]
        congr 1
        simp [flatBlock, hc]
      · have hskip : applyListHandler (c :: b) v
            (acc ++ [(c :: b, v), (b, v), (otherPfx c :: b, v)]) =
            acc ++ [(c :: b, v), (b, v), (otherPfx c :: b, v)] := by
          apply applyListHandler_skip_key
          rcases hc with h | h <;> subst h <;>
            exact ⟨by simp, by simp [hl], by simp [hl]⟩
        rw [hskip]
        congr 1
        simp [flatBlock, hc, hl]
    · -- unprefixed key: written under the original key only
      have hbase : baseOf (c :: b) = c :: b := by simp [baseOf, hc]
      rw [hbase] at hd hbq hbp hctxnull
      have hws : writeSpellings (c :: b) v acc = acc ++ [(c :: b, v)] := by
        rw [writeSpellings_unpfx _ _ _ (by simp [pfxOf, hc]),
          setKey_append _ _ _ (hd _ (Or.inl rfl))]
      rw [hws]
      have hctxskip : applyContextHandler (c :: b) v (acc ++ [(c :: b, v)]) =
          .ok (acc ++ [(c :: b, v)]) := by
        by_cases hnull : isNull v = true
        · have hbc : c :: b ≠ "context".data := by
            intro hbceq
            rw [hctxnull hbceq] at hnull
            exact Bool.false_ne_true hnull
          apply applyContextHandler_skip_key
          refine ⟨hbc, ?_, ?_⟩
          · exact ne_of_pfx_none _ (by simp [pfxOf, hc]) '@' _ (Or.inl rfl)
          · exact ne_of_pfx_none _ (by simp [pfxOf, hc]) '$' _ (Or.inr rfl)
        · exact applyContextHandler_skip_notObj _ _ _
            (scalar_nonnull_typeof v hsc (by simpa using hnull))
      rw [hctxskip]
      simp only []
      rw [applyWorkerHandler_nonobj _ _ _ (scalar_ne_obj v hsc)]
      by_cases hl : c :: b = "list".data
      · have hfire : applyListHandler (c :: b) v (acc ++ [(c :: b, v)]) =
            acc ++ [(c :: b, vArr [v])] := by
          rw [applyListHandler_fire _ _ _ (Or.inl hl) hsc,
            setKey_append_right _ _ _ _ (by rw [← hl]; exact hd _ (Or.inl rfl))]
          simp [setKey, hl]
        rw [hfire]
        congr 1
        simp [flatBlock, hc, hl]
      · have hskip : applyListHandler (c :: b) v (acc ++ [(c :: b, v)]) =
            acc ++ [(c :: b, v)] := by
          apply applyListHandler_skip_key
          refine ⟨hl, ?_, ?_⟩
          · exact ne_of_pfx_none _ (by simp [pfxOf, hc]) '@' _ (Or.inl rfl)
          · exact ne_of_pfx_none _ (by simp [pfxOf, hc]) '$' _ (Or.inr rfl)
        rw [hskip]
        congr 1
        simp [flatBlock, hc, hl]

theorem getKey_append_of_none (m m' : Mapping) (k : List Char)
    (h : getKey m k = none) : getKey (m ++ m') k = getKey m' k := by
  rw [getKey_append, h]

theorem getKey_flatBlock_none (k : List Char) (v : Value) (s : List Char)
    (h1 : s ≠ baseOf k) (h2 : s ≠ '@' :: baseOf k) (h3 : s ≠ '$' :: baseOf k) :
    getKey (flatBlock k v) s = none := by
  unfold flatBlock
  cases k with
  | nil =>
    simp only [baseOf] at h1
    simp [getKey, Ne.symm h1]
  | cons c b =>
    by_cases hc : c = '@' ∨ c = '$'
    · have hb : baseOf (c :: b) = b := by simp [baseOf, hc]
      rw [hb] at h1 h2 h3
      have hck : c :: b ≠ s := by
        rcases hc with h | h <;> subst h
        · exact fun heq => h2 heq.symm
        · exact fun heq => h3 heq.symm
      have hot : otherPfx c :: b ≠ s := by
        rcases otherPfx_mem c hc with h | h <;> rw [h]
        · exact fun heq => h2 heq.symm
        · exact fun heq => h3 heq.symm
      by_cases hl : b = "list".data
      · subst hl
        simp [hc, getKey, hck, hot, Ne.symm h1]
      · simp [hc, hl, getKey, hck, hot, Ne.symm h1]
    · have hb : baseOf (c :: b) = c :: b := by simp [baseOf, hc]
      rw [hb] at h1
      by_cases hl : c :: b = "list".data
      · rw [hl] at h1
        simp [hc, hl, getKey, Ne.symm h1]
      · simp [hc, hl, getKey, Ne.symm h1]

theorem spelling_ne_spelling (b bb : List Char) (hb : pfxOf b = none)
    (hbb : pfxOf bb = none) (hne : bb ≠ b) :
    ∀ s, (s = bb ∨ s = '@' :: bb ∨ s = '$' :: bb) →
      s ≠ b ∧ s ≠ '@' :: b ∧ s ≠ '$' :: b := by
  intro s hs
  rcases hs with h | h | h <;> subst h
  · exact ⟨hne, ne_of_pfx_none _ hbb '@' b (Or.inl rfl),
      ne_of_pfx_none _ hbb '$' b (Or.inr rfl)⟩
  · refine ⟨fun heq => (ne_of_pfx_none b hb '@' bb (Or.inl rfl)) heq.symm, ?_, ?_⟩
    · intro heq
      exact hne (List.cons.inj heq).2
    · exact cons_ne_of_head _ _ _ _ (by decide)
  · refine ⟨fun heq => (ne_of_pfx_none b hb '$' bb (Or.inr rfl)) heq.symm, ?_, ?_⟩
    · exact cons_ne_of_head _ _ _ _ (by decide)
    · intro heq
      exact hne (List.cons.inj heq).2

theorem processEntries_flat (fs : Mapping) : ∀ acc : Mapping,
    (∀ kv ∈ fs, flatEntryOK kv) →
    ((fs.map (fun kv => baseOf kv.1)).Nodup) →
    (∀ kv ∈ fs, ∀ s, (s = baseOf kv.1 ∨ s = '@' :: baseOf kv.1 ∨ s = '$' :: baseOf kv.1) →
      getKey acc s = none) →
    processEntries fs acc = .ok (acc ++ flatBlocks fs) := by
  induction fs with
  | nil => intro acc _ _ _; simp [processEntries_nil, flatBlocks]
  | cons kv rest ih =>
    intro acc hok hnd hd
    obtain ⟨k, v⟩ := kv
    rw [processEntries_cons,
      entryStep_flat k v acc (hok (k, v) (List.mem_cons_self _ _))
        (hd (k, v) (List.mem_cons_self _ _))]
    simp only []
    have hnd2 : ((rest.map (fun kv => baseOf kv.1)).Nodup) := by
      simp only [List.map_cons, List.nodup_cons] at hnd
      exact hnd.2
    rw [ih (acc ++ flatBlock k v) (fun kv h => hok kv (by simp [h])) hnd2 ?_]
    · simp [flatBlocks]
    · intro kv2 hkv2 s hs
      apply getKey_append_none
      · exact hd kv2 (by simp [hkv2]) s hs
      · have hbne : baseOf kv2.1 ≠ baseOf k := by
          simp only [List.map_cons, List.nodup_cons] at hnd
          intro heq
          exact hnd.1 (heq ▸ List.mem_map_of_mem _ hkv2)
        have hsp := spelling_ne_spelling (baseOf k) (baseOf kv2.1)
          ((hok (k, v) (List.mem_cons_self _ _)).2.2.2.1)
          ((hok kv2 (by simp [hkv2])).2.2.2.1) hbne s hs
        exact getKey_flatBlock_none k v s hsp.1 hsp.2.1 hsp.2.2

theorem entryStep_idem_unpfx (b : List Char) (v : Value) (acc : Mapping)
    (hsc : isScalar v = true) (hq : stripQuotesL b = b) (hp : pfxOf b = none)
    (hnl : b ≠ "list".data)
    (hcn : b = "context".data → isNull v = false)
    (hex : getKey acc b = some v) :
    entryStep b v acc = .ok acc := by
  unfold entryStep
  rw [processOneValue_scalar v hsc]
  simp only [hq]
  rw [writeSpellings_unpfx _ _ _ hp, setKey_idem_val _ _ _ hex]
  have hctx : applyContextHandler b v acc = .ok acc := by
    by_cases hnull : isNull v = true
    · have hbc : b ≠ "context".data := by
        intro hbceq
        rw [hcn hbceq] at hnull
        exact Bool.false_ne_true hnull
      exact applyContextHandler_skip_key _ _ _ ⟨hbc,
        ne_of_pfx_none _ hp '@' _ (Or.inl rfl), ne_of_pfx_none _ hp '$' _ (Or.inr rfl)⟩
    · exact applyContextHandler_skip_notObj _ _ _
        (scalar_nonnull_typeof v hsc (by simpa using hnull))
  rw [hctx]
  simp only []
  rw [applyWorkerHandler_nonobj _ _ _ (scalar_ne_obj v hsc),
    applyListHandler_skip_key _ _ _ ⟨hnl,
      ne_of_pfx_none _ hp '@' _ (Or.inl rfl), ne_of_pfx_none _ hp '$' _ (Or.inr rfl)⟩]

theorem entryStep_idem_pfx (c : Char) (b : List Char) (v : Value) (acc : Mapping)
    (hc : c = '@' ∨ c = '$') (hsc : isScalar v = true)
    (hnl : b ≠ "list".data)
    (hcn : b = "context".data → isNull v = false)
    (hex1 : getKey acc (c :: b) = some v)
    (hex2 : getKey acc b = some v)
    (hex3 : getKey acc (otherPfx c :: b) = some v) :
    entryStep (c :: b) v acc = .ok acc := by
  unfold entryStep
  rw [processOneValue_scalar v hsc]
  simp only [stripQuotes_sigil c b hc]
  rw [writeSpellings_pfx _ _ _ _ hc, setKey_idem_val _ _ _ hex1,
    setKey_idem_val _ _ _ hex2, setKey_idem_val _ _ _ hex3]
  have hctx : applyContextHandler (c :: b) v acc = .ok acc := by
    by_cases hnull : isNull v = true
    · have hbc : b ≠ "context".data := by
        intro hbceq
        rw [hcn hbceq] at hnull
        exact Bool.false_ne_true hnull
      apply applyContextHandler_skip_key
      rcases hc with h | h <;> subst h <;>
        exact ⟨by simp, by simp [hbc], by simp [hbc]⟩
    · exact applyContextHandler_skip_notObj _ _ _
        (scalar_nonnull_typeof v hsc (by simpa using hnull))
  rw [hctx]
  simp only []
  rw [applyWorkerHandler_nonobj _ _ _ (scalar_ne_obj v hsc)]
  have hlist : applyListHandler (c :: b) v acc = acc := by
    apply applyListHandler_skip_key
    rcases hc with h | h <;> subst h <;>
      exact ⟨by simp, by simp [hnl], by simp [hnl]⟩
  rw [hlist]

theorem entryStep_idem_list_arr (xs : List Value) (acc : Mapping)
    (hxs : ∀ x ∈ xs, isScalar x = true)
    (hex : getKey acc "list".data = some (vArr xs)) :
    entryStep "list".data (vArr xs) acc = .ok acc := by
  unfold entryStep
  have h1 : processOneValue (vArr xs) = .ok (vArr xs) := by
    simp [processOneValue, cloneArray_scalars xs hxs]
  rw [h1]
  simp only [show stripQuotesL "list".data = "list".data from rfl]
  rw [writeSpellings_unpfx _ _ _ (by decide), setKey_idem_val _ _ _ hex,
    applyContextHandler_skip_key _ _ _ ⟨by decide, by decide, by decide⟩]
  simp only []
  rw [applyWorkerHandler_nonobj _ _ _ (fun fs => by simp),
    applyListHandler_fire_arr _ _ _ (Or.inl rfl), setKey_idem_val _ _ _ hex]

theorem entryStep_list_arr_fresh (xs : List Value) (acc : Mapping)
    (hxs : ∀ x ∈ xs, isScalar x = true)
    (hnew : getKey acc "list".data = none) :
    entryStep "list".data (vArr xs) acc = .ok (acc ++ [("list".data, vArr xs)]) := by
  unfold entryStep
  have h1 : processOneValue (vArr xs) = .ok (vArr xs) := by
    simp [processOneValue, cloneArray_scalars xs hxs]
  rw [h1]
  simp only [show stripQuotesL "list".data = "list".data from rfl]
  have hex : getKey (acc ++ [("list".data, vArr xs)]) "list".data = some (vArr xs) := by
    rw [getKey_append_of_none _ _ _ hnew]
    simp [getKey]
  rw [writeSpellings_unpfx _ _ _ (by decide), setKey_append _ _ _ hnew,
    applyContextHandler_skip_key _ _ _ ⟨by decide, by decide, by decide⟩]
  simp only []
  rw [applyWorkerHandler_nonobj _ _ _ (fun fs => by simp),
    applyListHandler_fire_arr _ _ _ (Or.inl rfl), setKey_idem_val _ _ _ hex]

theorem entryStep_pfx_list (c : Char) (v : Value) (acc0 : Mapping)
    (hc : c = '@' ∨ c = '$') (hsc : isScalar v = true)
    (hd : ∀ s, (s = "list".data ∨ s = '@' :: "list".data ∨ s = '$' :: "list".data) →
      getKey acc0 s = none) :
    entryStep (otherPfx c :: "list".data) v
      (acc0 ++ [(c :: "list".data, v), ("list".data, vArr [v]),
        (otherPfx c :: "list".data, v)]) =
      .ok (acc0 ++ [(c :: "list".data, v), ("list".data, vArr [v]),
        (otherPfx c :: "list".data, v)]) := by
  have ho := otherPfx_mem c hc
  have hdo : getKey acc0 (otherPfx c :: "list".data) = none := by
    rcases ho with h | h <;> rw [h]
    · exact hd _ (Or.inr (Or.inl rfl))
    · exact hd _ (Or.inr (Or.inr rfl))
  have hdc : getKey acc0 (c :: "list".data) = none := by
    rcases hc with h | h <;> rw [h]
    · exact hd _ (Or.inr (Or.inl rfl))
    · exact hd _ (Or.inr (Or.inr rfl))
  have hne1 : c :: "list".data ≠ otherPfx c :: "list".data :=
    cons_ne_of_head _ _ _ _ (otherPfx_ne c hc).symm
  have hne2 : ("list".data : List Char) ≠ otherPfx c :: "list".data :=
    (List.cons_ne_self (otherPfx c) "list".data).symm
  have hex1 : getKey (acc0 ++ [(c :: "list".data, v), ("list".data, vArr [v]),
      (otherPfx c :: "list".data, v)]) (otherPfx c :: "list".data) = some v := by
    rw [getKey_append_of_none _ _ _ hdo]
    simp [getKey, hne1, hne2]
  unfold entryStep
  rw [processOneValue_scalar v hsc]
  simp only [stripQuotes_sigil (otherPfx c) "list".data ho]
  rw [writeSpellings_pfx _ _ _ _ ho, setKey_idem_val _ _ _ hex1]
  have hupd : setKey (acc0 ++ [(c :: "list".data, v), ("list".data, vArr [v]),
      (otherPfx c :: "list".data, v)]) "list".data v =
      acc0 ++ [(c :: "list".data, v), ("list".data, v),
        (otherPfx c :: "list".data, v)] := by
    rw [setKey_append_right _ _ _ _ (hd _ (Or.inl rfl))]
    congr 1
    simp [setKey, (List.cons_ne_self c "list".data).symm]
  rw [hupd]
  have hexc : getKey (acc0 ++ [(c :: "list".data, v), ("list".data, v),
      (otherPfx c :: "list".data, v)]) (otherPfx (otherPfx c) :: "list".data) = some v := by
    rw [otherPfx_invol c hc, getKey_append_of_none _ _ _ hdc]
    simp [getKey]
  rw [setKey_idem_val _ _ _ hexc]
  have hctx : applyContextHandler (otherPfx c :: "list".data) v
      (acc0 ++ [(c :: "list".data, v), ("list".data, v),
        (otherPfx c :: "list".data, v)]) =
      .ok (acc0 ++ [(c :: "list".data, v), ("list".data, v),
        (otherPfx c :: "list".data, v)]) := by
    apply applyContextHandler_skip_key
    rcases ho with h | h <;> rw [h] <;> exact ⟨by simp, by simp, by simp⟩
  rw [hctx]
  simp only []
  rw [applyWorkerHandler_nonobj _ _ _ (scalar_ne_obj v hsc)]
  have hfire : applyListHandler (otherPfx c :: "list".data) v
      (acc0 ++ [(c :: "list".data, v), ("list".data, v),
        (otherPfx c :: "list".data, v)]) =
      acc0 ++ [(c :: "list".data, v), ("list".data, vArr [v]),
        (otherPfx c :: "list".data, v)] := by
    rw [applyListHandler_fire _ _ _ (by rcases ho with h | h <;> rw [h] <;> simp) hsc,
      setKey_append_right _ _ _ _ (hd _ (Or.inl rfl))]
    congr 1
    simp [setKey, (List.cons_ne_self c "list".data).symm]
  rw [hfire]

theorem processEntries_block (k : List Char) (v : Value) (acc : Mapping)
    (hok : flatEntryOK (k, v))
    (hd : ∀ s, (s = baseOf k ∨ s = '@' :: baseOf k ∨ s = '$' :: baseOf k) →
      getKey acc s = none) :
    processEntries (flatBlock k v) acc = .ok (acc ++ flatBlock k v) := by
  have hstep := entryStep_flat k v acc hok hd
  obtain ⟨hsc, hq, hbq, hbp, hctxnull⟩ := hok
  simp only at hsc hq hbq hbp hctxnull
  cases k with
  | nil =>
    rw [show flatBlock [] v = [([], v)] from rfl] at hstep ⊢
    rw [processEntries_cons, hstep]
    simp only []
    rw [processEntries_nil]
  | cons c b =>
    by_cases hc : c = '@' ∨ c = '$'
    · have hbase : baseOf (c :: b) = b := by simp [baseOf, hc]
      rw [hbase] at hd hbq hbp hctxnull
      by_cases hl : b = "list".data
      · -- prefixed list block
        subst hl
        have hblk : flatBlock (c :: "list".data) v =
            [(c :: "list".data, v), ("list".data, vArr [v]),
              (otherPfx c :: "list".data, v)] := by
          simp [flatBlock, hc]
        rw [hblk] at hstep ⊢
        rw [processEntries_cons, hstep]
        simp only []
        have hex2 : getKey (acc ++ [(c :: "list".data, v), ("list".data, vArr [v]),
            (otherPfx c :: "list".data, v)]) "list".data = some (vArr [v]) := by
          rw [getKey_append_of_none _ _ _ (hd _ (Or.inl rfl))]
          simp [getKey, (List.cons_ne_self c "list".data).symm]
        rw [processEntries_cons,
          entryStep_idem_list_arr [v] _ (by simpa using hsc) hex2]
        simp only []
        rw [processEntries_cons, entryStep_pfx_list c v acc hc hsc hd]
        simp only []
        rw [processEntries_nil]
      · -- prefixed non-list block
        have hblk : flatBlock (c :: b) v =
            [(c :: b, v), (b, v), (otherPfx c :: b, v)] := by
          simp [flatBlock, hc, hl]
        rw [hblk] at hstep ⊢
        rw [processEntries_cons, hstep]
        simp only []
        have hgb : getKey (acc ++ [(c :: b, v), (b, v), (otherPfx c :: b, v)]) b =
            some v := by
          rw [getKey_append_of_none _ _ _ (hd _ (Or.inl rfl))]
          simp [getKey, (List.cons_ne_self c b).symm]
        rw [processEntries_cons,
          entryStep_idem_unpfx b v _ hsc hbq hbp hl hctxnull hgb]
        simp only []
        have ho := otherPfx_mem c hc
        have hgc : getKey (acc ++ [(c :: b, v), (b, v), (otherPfx c :: b, v)])
            (c :: b) = some v := by
          rw [getKey_append_of_none _ _ _ (by
            rcases hc with h | h <;> rw [h]
            · exact hd _ (Or.inr (Or.inl rfl))
            · exact hd _ (Or.inr (Or.inr rfl)))]
          simp [getKey]
        have hgo : getKey (acc ++ [(c :: b, v), (b, v), (otherPfx c :: b, v)])
            (otherPfx c :: b) = some v := by
          rw [getKey_append_of_none _ _ _ (by
            rcases ho with h | h <;> rw [h]
            · exact hd _ (Or.inr (Or.inl rfl))
            · exact hd _ (Or.inr (Or.inr rfl)))]
          simp [getKey, cons_ne_of_head _ _ b b (otherPfx_ne c hc).symm,
            (List.cons_ne_self (otherPfx c) b).symm]
        rw [processEntries_cons,
          entryStep_idem_pfx (otherPfx c) b v _ ho hsc hl hctxnull hgo
            hgb (by rw [otherPfx_invol c hc]; exact hgc)]
        simp only []
        rw [processEntries_nil]
    · have hbase : baseOf (c :: b) = c :: b := by simp [baseOf, hc]
      rw [hbase] at hd hbq hbp hctxnull
      by_cases hl : c :: b = "list".data
      · -- unprefixed list block
        have hblk : flatBlock (c :: b) v = [(c :: b, vArr [v])] := by
          simp [flatBlock, hc, hl]
        rw [hblk]
        rw [processEntries_cons]
        have : entryStep (c :: b) (vArr [v]) acc = .ok (acc ++ [(c :: b, vArr [v])]) := by
          rw [hl]
          exact entryStep_list_arr_fresh [v] acc (by simpa using hsc)
            (by rw [← hl]; exact hd _ (Or.inl rfl))
        rw [this]
        simp only []
        rw [processEntries_nil]
      · -- unprefixed non-list block
        have hblk : flatBlock (c :: b) v = [(c :: b, v)] := by
          simp [flatBlock, hc, hl]
        rw [hblk] at hstep ⊢
        rw [processEntries_cons, hstep]
        simp only []
        rw [processEntries_nil]

theorem processEntries_reflat (fs : Mapping) : ∀ acc : Mapping,
    (∀ kv ∈ fs, flatEntryOK kv) →
    ((fs.map (fun kv => baseOf kv.1)).Nodup) →
    (∀ kv ∈ fs, ∀ s, (s = baseOf kv.1 ∨ s = '@' :: baseOf kv.1 ∨ s = '$' :: baseOf kv.1) →
      getKey acc s = none) →
    processEntries (flatBlocks fs) acc = .ok (acc ++ flatBlocks fs) := by
  induction fs with
  | nil => intro acc _ _ _; simp [processEntries_nil, flatBlocks]
  | cons kv rest ih =>
    intro acc hok hnd hd
    obtain ⟨k, v⟩ := kv
    rw [show flatBlocks ((k, v) :: rest) = flatBlock k v ++ flatBlocks rest from rfl,
      processEntries_append,
      processEntries_block k v acc (hok (k, v) (List.mem_cons_self _ _))
        (hd (k, v) (List.mem_cons_self _ _))]
    simp only []
    have hnd2 : ((rest.map (fun kv => baseOf kv.1)).Nodup) := by
      simp only [List.map_cons, List.nodup_cons] at hnd
      exact hnd.2
    rw [ih (acc ++ flatBlock k v) (fun kv h => hok kv (by simp [h])) hnd2 ?_]
    · simp
    · intro kv2 hkv2 s hs
      apply getKey_append_none
      · exact hd kv2 (by simp [hkv2]) s hs
      · have hbne : baseOf kv2.1 ≠ baseOf k := by
          simp only [List.map_cons, List.nodup_cons] at hnd
          intro heq
          exact hnd.1 (heq ▸ List.mem_map_of_mem _ hkv2)
        have hsp := spelling_ne_spelling (baseOf k) (baseOf kv2.1)
          ((hok (k, v) (List.mem_cons_self _ _)).2.2.2.1)
          ((hok kv2 (by simp [hkv2])).2.2.2.1) hbne s hs
        exact getKey_flatBlock_none k v s hsp.1 hsp.2.1 hsp.2.2

/-! ### Claim theorems -/

/-- Claim C1 counterexample: with caller option `{name: "X"}` (and routes) and a
document `$worker` block naming `"Y"` (and routes), the extracted `name` is
`"Y"` and the routes are the document's — the caller does not win. -/
theorem c1_counterexample :
    metaName ⟨some (vObj [("$worker".data, vObj [("name".data, vStr "Y")])]), vUndef, vUndef⟩
        (some ⟨"X", none⟩) = some (vStr "Y") ∧
    metaRoutes ⟨some (vObj [("$worker".data, vObj [("routes".data, vArr [vStr "/doc"])])]),
        vUndef, vUndef⟩ (some ⟨"X", some [vStr "/caller"]⟩) = some (vArr [vStr "/doc"]) ∧
    ¬ (vStr "Y") = (vStr "X") := by
  refine ⟨rfl, rfl, ?_⟩
  simp

/-- Claim C1 (amended): the document's nested `$worker` block has the highest
precedence: caller options are applied first (line 138) and the worker block
afterwards (line 144), so a truthy worker-block `name`/`routes` overwrites the
caller-supplied values, for every document of this shape. -/
theorem c1_worker_block_overrides_caller (X Y : String) (hX : X ≠ "") (hY : Y ≠ "")
    (rsC rsD : List Value) (hrs : ∀ x ∈ rsD, isScalar x = true) :
    metaName ⟨some (vObj [("$worker".data,
        vObj [("name".data, vStr Y), ("routes".data, vArr rsD)])]), vUndef, vUndef⟩
      (some ⟨X, some rsC⟩) = some (vStr Y) ∧
    metaRoutes ⟨some (vObj [("$worker".data,
        vObj [("name".data, vStr Y), ("routes".data, vArr rsD)])]), vUndef, vUndef⟩
      (some ⟨X, some rsC⟩) = some (vArr rsD) := by
  have htY : truthy (vStr Y) = true := by simp [truthy, hY]
  have hcl : cloneArray rsD = .ok rsD := cloneArray_scalars rsD hrs
  constructor <;>
    simp [metaName, metaRoutes, extractWorkerMetadata, processMetadata,
      processEntries, processOneValue, hcl, htY, stripQuotesL, squote, dquote,
      writeSpellings, applyContextHandler, applyWorkerHandler, applyListHandler,
      getProp, getKey, setKey, jsOr, assignAll, applyWorkerData, jsToStr,
      hX, defaultConfig]

/-- Claim C1 witness: the amended precedence at a concrete document. -/
theorem c1_witness :
    ("X" : String) ≠ "" ∧ ("Y" : String) ≠ "" ∧
    (∀ x ∈ [vStr "/d"], isScalar x = true) ∧
    metaName ⟨some (vObj [("$worker".data,
        vObj [("name".data, vStr "Y"), ("routes".data, vArr [vStr "/d"])])]), vUndef, vUndef⟩
      (some ⟨"X", some [vStr "/c"]⟩) = some (vStr "Y") ∧
    metaRoutes ⟨some (vObj [("$worker".data,
        vObj [("name".data, vStr "Y"), ("routes".data, vArr [vStr "/d"])])]), vUndef, vUndef⟩
      (some ⟨"X", some [vStr "/c"]⟩) = some (vArr [vStr "/d"]) := by
  have h := c1_worker_block_overrides_caller "X" "Y" (by decide) (by decide)
    [vStr "/c"] [vStr "/d"] (by decide)
  exact ⟨by decide, by decide, by decide, h.1, h.2⟩

/-- Claim C2 counterexample: an unprefixed special key (`type`) is not
tripled; a quoted key survives only in quote-stripped form; and the three
spellings of `context` are not bound to the same value after the vocab
rewrite. -/
theorem c2_counterexample :
    processMetadata (vObj [("type".data, vStr "A"),
        ("@context".data, vObj [("vocab".data, vStr "v")]), ("'q'".data, vNum 1)]) =
      .ok [("type".data, vStr "A"), ("@context".data, vObj [("vocab".data, vStr "v")]),
        ("context".data, vObj [("@vocab".data, vStr "v")]),
        ("$context".data, vObj [("vocab".data, vStr "v")]), ("q".data, vNum 1)] ∧
    getKey [("type".data, vStr "A"), ("@context".data, vObj [("vocab".data, vStr "v")]),
        ("context".data, vObj [("@vocab".data, vStr "v")]),
        ("$context".data, vObj [("vocab".data, vStr "v")]), ("q".data, vNum 1)]
      "@type".data = none ∧
    getKey [("type".data, vStr "A"), ("@context".data, vObj [("vocab".data, vStr "v")]),
        ("context".data, vObj [("@vocab".data, vStr "v")]),
        ("$context".data, vObj [("vocab".data, vStr "v")]), ("q".data, vNum 1)]
      "'q'".data = none ∧
    ¬ getKey [("type".data, vStr "A"), ("@context".data, vObj [("vocab".data, vStr "v")]),
        ("context".data, vObj [("@vocab".data, vStr "v")]),
        ("$context".data, vObj [("vocab".data, vStr "v")]), ("q".data, vNum 1)]
      "context".data =
      getKey [("type".data, vStr "A"), ("@context".data, vObj [("vocab".data, vStr "v")]),
        ("context".data, vObj [("@vocab".data, vStr "v")]),
        ("$context".data, vObj [("vocab".data, vStr "v")]), ("q".data, vNum 1)]
      "@context".data := by
  refine ⟨rfl, rfl, rfl, ?_⟩
  simp [getKey]

/-- Claim C2 (amended): the output key set contains the quote-stripped form of
every input key, and for every input key carrying an `@`/`$` sigil — special
or not — all three spellings of its base are present in the output (presence,
not value-equality: rewrites and colliding keys can differentiate them;
unprefixed keys are never tripled). -/
theorem c2_prefixed_spellings_present (fs res : Mapping)
    (hres : processMetadata (vObj fs) = .ok res) (k : List Char) (v : Value)
    (hmem : (k, v) ∈ fs) :
    hasKey res (stripQuotesL k) ∧
    (∀ c b, stripQuotesL k = c :: b → (c = '@' ∨ c = '$') →
      hasKey res b ∧ hasKey res ('@' :: b) ∧ hasKey res ('$' :: b)) := by
  have h : processEntries fs [] = .ok res := by
    simpa [processMetadata] using hres
  exact processEntries_writes_spellings fs [] res h k v hmem

/-- Claim C2 witness: for input `{"@foo": 1}` all three spellings appear. -/
theorem c2_witness :
    processMetadata (vObj [("@foo".data, vNum 1)]) =
      .ok [("@foo".data, vNum 1), ("foo".data, vNum 1), ("$foo".data, vNum 1)] ∧
    (("@foo".data, vNum 1) ∈ ([("@foo".data, vNum 1)] : Mapping)) ∧
    hasKey [("@foo".data, vNum 1), ("foo".data, vNum 1), ("$foo".data, vNum 1)]
      (stripQuotesL "@foo".data) ∧
    hasKey [("@foo".data, vNum 1), ("foo".data, vNum 1), ("$foo".data, vNum 1)] "foo".data ∧
    hasKey [("@foo".data, vNum 1), ("foo".data, vNum 1), ("$foo".data, vNum 1)]
      ('@' :: "foo".data) ∧
    hasKey [("@foo".data, vNum 1), ("foo".data, vNum 1), ("$foo".data, vNum 1)]
      ('$' :: "foo".data) := by
  have h := c2_prefixed_spellings_present [("@foo".data, vNum 1)]
    [("@foo".data, vNum 1), ("foo".data, vNum 1), ("$foo".data, vNum 1)] rfl
    "@foo".data (vNum 1) (List.mem_cons_self _ _)
  have h3 := h.2 '@' "foo".data rfl (Or.inl rfl)
  exact ⟨rfl, List.mem_cons_self _ _, h.1, h3.1, h3.2.1, h3.2.2⟩

/-- Claim C3 counterexample: inside a context mapping, `$vocab` is NOT
rewritten to `@vocab`: it is preserved as-is (only the bare `vocab` key is
rewritten, after the recursive pass has also tripled it). -/
theorem c3_counterexample :
    processMetadata (vObj [("context".data, vObj [("$vocab".data, vStr "x")])]) =
      .ok [("context".data, vObj [("$vocab".data, vStr "x"), ("@vocab".data, vStr "x")])] ∧
    ¬ (vObj [("$vocab".data, vStr "x"), ("@vocab".data, vStr "x")]) =
        (vObj [("@vocab".data, vStr "x")]) := by
  refine ⟨rfl, ?_⟩
  simp

/-- Claim C3 (amended): for a mapping bound to the unprefixed `context` key,
after the value's own recursive normalization, only keys spelled exactly
`vocab` are rewritten to `@vocab`; all other keys — including `$vocab` — are
preserved verbatim, and the rewritten mapping is stored under the unprefixed
`context` key. -/
theorem c3_context_vocab_rewrite (ctx pv : Mapping)
    (h : processEntries ctx [] = .ok pv)
    (hnd : (pv.map (fun kv => vocabKeyMap kv.1)).Nodup) :
    processMetadata (vObj [("context".data, vObj ctx)]) =
      .ok [("context".data, vObj (pv.map (fun kv => (vocabKeyMap kv.1, kv.2))))] := by
  have hone : processOneValue (vObj ctx) = .ok (vObj pv) := by
    simp [processOneValue, h]
  have hmeta : processMetadata (vObj [("context".data, vObj ctx)]) =
      processEntries [("context".data, vObj ctx)] [] := by
    simp [processMetadata]
  have hws : writeSpellings (stripQuotesL "context".data) (vObj pv) [] =
      [("context".data, vObj pv)] := by
    rw [show stripQuotesL "context".data = "context".data from rfl,
      writeSpellings_unpfx _ _ _ (by decide)]
    rfl
  have hctx2 : applyContextHandler (stripQuotesL "context".data) (vObj pv)
      [("context".data, vObj pv)] = .ok [("context".data, vObj (ctxRewrite pv))] := by
    rw [show stripQuotesL "context".data = "context".data from rfl]
    unfold applyContextHandler jsEntries
    rw [if_pos ⟨Or.inl rfl, rfl⟩]
    simp [setKey]
  rw [hmeta, processEntries_cons]
  unfold entryStep
  rw [hone]
  simp only [hws, hctx2]
  rw [applyWorkerHandler_skip_key _ _ _ ⟨by decide, by decide, by decide⟩,
    applyListHandler_skip_key _ _ _ ⟨by decide, by decide, by decide⟩,
    processEntries_nil, ctxRewrite_map pv hnd]

/-- Claim C3 witness: `context: {vocab: s, dc: d}` becomes
`context: {"@vocab": s, dc: d}`. -/
theorem c3_witness :
    processEntries [("vocab".data, vStr "s"), ("dc".data, vStr "d")] [] =
      .ok [("vocab".data, vStr "s"), ("dc".data, vStr "d")] ∧
    ((([("vocab".data, vStr "s"), ("dc".data, vStr "d")] : Mapping)).map
      (fun kv => vocabKeyMap kv.1)).Nodup ∧
    processMetadata (vObj [("context".data,
        vObj [("vocab".data, vStr "s"), ("dc".data, vStr "d")])]) =
      .ok [("context".data, vObj [("@vocab".data, vStr "s"), ("dc".data, vStr "d")])] := by
  refine ⟨rfl, by decide, ?_⟩
  have h := c3_context_vocab_rewrite [("vocab".data, vStr "s"), ("dc".data, vStr "d")]
    [("vocab".data, vStr "s"), ("dc".data, vStr "d")] rfl (by decide)
  simpa [vocabKeyMap] using h

/-- Claim C4 counterexample: normalization is not idempotent.  For
`{"@a": 1, "a": 2}` the first pass yields `{"@a":1, "a":2, "$a":1}`, but the
second pass re-triples `$a` and overwrites `a` with `1`. -/
theorem c4_counterexample :
    processMetadata (vObj [("@a".data, vNum 1), ("a".data, vNum 2)]) =
      .ok [("@a".data, vNum 1), ("a".data, vNum 2), ("$a".data, vNum 1)] ∧
    processMetadata (vObj [("@a".data, vNum 1), ("a".data, vNum 2), ("$a".data, vNum 1)]) =
      .ok [("@a".data, vNum 1), ("a".data, vNum 1), ("$a".data, vNum 1)] ∧
    ¬ ([("@a".data, vNum 1), ("a".data, vNum 1), ("$a".data, vNum 1)] : Mapping) =
        [("@a".data, vNum 1), ("a".data, vNum 2), ("$a".data, vNum 1)] := by
  refine ⟨rfl, rfl, ?_⟩
  simp

/-- Claim C4 (amended): normalization is idempotent on flat mappings — scalar
values, quote-free keys and bases, unprefixed bases, pairwise-distinct base
names, and no `null` bound to a context-classified key: re-running the
normalizer on such an output changes nothing.  (In general it is not
idempotent: sibling spellings can collide, and prefixed keys inside a
rewritten `context` mapping get re-tripled.) -/
theorem c4_flat_idempotent (fs res : Mapping) (hflat : flatOK fs)
    (hres : processMetadata (vObj fs) = .ok res) :
    processMetadata (vObj res) = .ok res := by
  obtain ⟨hok, hnd⟩ := hflat
  have h1 : processEntries fs [] = .ok (flatBlocks fs) := by
    simpa using processEntries_flat fs [] hok hnd (by intro kv _ s _; simp)
  have hres2 : res = flatBlocks fs := by
    have h2 : processMetadata (vObj fs) = .ok (flatBlocks fs) := by
      simp [processMetadata, h1]
    rw [hres] at h2
    exact Except.ok.inj h2
  subst hres2
  have h3 : processEntries (flatBlocks fs) [] = .ok (flatBlocks fs) := by
    simpa using processEntries_reflat fs [] hok hnd (by intro kv _ s _; simp)
  simp [processMetadata, h3]

/-- Claim C4 witness: idempotence on the flat document `{"@a": 1, "b": "x"}`. -/
theorem c4_witness :
    flatOK [("@a".data, vNum 1), ("b".data, vStr "x")] ∧
    processMetadata (vObj [("@a".data, vNum 1), ("b".data, vStr "x")]) =
      .ok [("@a".data, vNum 1), ("a".data, vNum 1), ("$a".data, vNum 1),
        ("b".data, vStr "x")] ∧
    processMetadata (vObj [("@a".data, vNum 1), ("a".data, vNum 1), ("$a".data, vNum 1),
        ("b".data, vStr "x")]) =
      .ok [("@a".data, vNum 1), ("a".data, vNum 1), ("$a".data, vNum 1),
        ("b".data, vStr "x")] := by
  refine ⟨?_, rfl, ?_⟩
  · exact ⟨by decide, by decide⟩
  · exact c4_flat_idempotent [("@a".data, vNum 1), ("b".data, vStr "x")]
      [("@a".data, vNum 1), ("a".data, vNum 1), ("$a".data, vNum 1), ("b".data, vStr "x")]
      ⟨by decide, by decide⟩ rfl

/-- Claim C5: the code, not the claim, is wrong here — `typeof null ===
'object'` lets a `null` context reach `Object.entries(null)`, so the
normalizer throws a `TypeError` on `{context: null}` instead of passing the
malformed value through. -/
theorem c5_context_null_throws :
    processMetadata (vObj [("context".data, vNull)]) =
      .error "TypeError: Cannot convert undefined or null to object" ∧
    processMetadata (vObj [("context".data, vNum 5)]) =
      .ok [("context".data, vNum 5)] := by
  exact ⟨rfl, rfl⟩

/-- Claim C6 counterexample: a prefixed key with a non-special base (`@foo`)
is tripled into all three spellings, and an unprefixed `worker` key with a
name hoists a top-level `name` — the value is not written under the original
key only. -/
theorem c6_counterexample :
    processMetadata (vObj [("@foo".data, vNum 1)]) =
      .ok [("@foo".data, vNum 1), ("foo".data, vNum 1), ("$foo".data, vNum 1)] ∧
    getKey [("@foo".data, vNum 1), ("foo".data, vNum 1), ("$foo".data, vNum 1)]
      "$foo".data = some (vNum 1) ∧
    processMetadata (vObj [("worker".data, vObj [("name".data, vStr "w")])]) =
      .ok [("worker".data, vObj [("name".data, vStr "w")]), ("name".data, vStr "w")] := by
  exact ⟨rfl, rfl, rfl⟩

/-- Claim C6 (amended): a clean unprefixed key whose name is not special is
written under the original key only; a prefixed key is always written under
all three spellings of its base, special or not (for non-`list` bases the
same value under all three). -/
theorem c6_spelling_policy :
    (∀ (k : List Char) (v : Value), flatEntryOK (k, v) → pfxOf k = none →
      k ≠ "context".data → k ≠ "worker".data → k ≠ "list".data →
      processMetadata (vObj [(k, v)]) = .ok [(k, v)]) ∧
    (∀ (c : Char) (b : List Char) (v : Value), flatEntryOK (c :: b, v) →
      (c = '@' ∨ c = '$') → b ≠ "list".data →
      processMetadata (vObj [(c :: b, v)]) =
        .ok [(c :: b, v), (b, v), (otherPfx c :: b, v)]) := by
  constructor
  · intro k v hok hp hc hw hl
    have h1 : processEntries [(k, v)] [] = .ok ([] ++ flatBlocks [(k, v)]) :=
      processEntries_flat [(k, v)] []
        (by intro kv hkv; rw [List.mem_singleton] at hkv; exact hkv ▸ hok)
        (by simp) (by intro kv _ s _; simp)
    have hfb : flatBlock k v = [(k, v)] := by
      cases k with
      | nil => rfl
      | cons c2 b2 =>
        have hcc : ¬(c2 = '@' ∨ c2 = '$') := by
          intro hcc
          simp [pfxOf, hcc] at hp
        simp [flatBlock, hcc, hl]
    simp [processMetadata, h1, flatBlocks, hfb]
  · intro c b v hok hcb hl
    have h1 : processEntries [(c :: b, v)] [] = .ok ([] ++ flatBlocks [(c :: b, v)]) :=
      processEntries_flat [(c :: b, v)] []
        (by intro kv hkv; rw [List.mem_singleton] at hkv; exact hkv ▸ hok)
        (by simp) (by intro kv _ s _; simp)
    have hfb : flatBlock (c :: b) v = [(c :: b, v), (b, v), (otherPfx c :: b, v)] := by
      simp [flatBlock, hcb, hl]
    simp [processMetadata, h1, flatBlocks, hfb]

/-- Claim C6 witness: `{title: "T"}` stays a single entry; `{"@foo": 1}` is
tripled. -/
theorem c6_witness :
    flatEntryOK ("title".data, vStr "T") ∧ pfxOf "title".data = none ∧
    "title".data ≠ "context".data ∧ "title".data ≠ "worker".data ∧
    "title".data ≠ "list".data ∧
    processMetadata (vObj [("title".data, vStr "T")]) = .ok [("title".data, vStr "T")] ∧
    flatEntryOK ("@foo".data, vNum 1) ∧ ('@' = '@' ∨ '@' = '$') ∧
    "foo".data ≠ "list".data ∧
    processMetadata (vObj [('@' :: "foo".data, vNum 1)]) =
      .ok [('@' :: "foo".data, vNum 1), ("foo".data, vNum 1),
        (otherPfx '@' :: "foo".data, vNum 1)] := by
  refine ⟨by decide, by decide, by decide, by decide, by decide, ?_, by decide,
    by decide, by decide, ?_⟩
  · exact c6_spelling_policy.1 "title".data (vStr "T") (by decide) (by decide)
      (by decide) (by decide) (by decide)
  · exact c6_spelling_policy.2 '@' "foo".data (vNum 1) (by decide) (by decide) (by decide)

/-- Claim C7 counterexample: a top-level frontmatter `config` mapping also
takes part in the merge, between the defaults and the worker-nested block:
with `config: {memory: 64}` and no worker block the final memory is 64, not
the claimed defaults-then-worker-then-caller result of 128. -/
theorem c7_counterexample :
    pipelineConfig ⟨some (vObj [("config".data, vObj [("memory".data, vNum 64)])]),
        vUndef, vUndef⟩ none =
      .ok [("memory".data, vNum 64), ("env".data, vObj [("NODE_ENV".data, vStr "production")])] ∧
    ¬ (vNum 64) = (vNum 128) := by
  refine ⟨rfl, ?_⟩
  simp

/-- Claim C7 (amended): the final `config` is the shallow merge, later wins
per top-level key with `env` replaced as a whole, of: built-in defaults
(memory 128, env NODE_ENV=production), then the document's top-level `config`
mapping, then the `config` block nested under the worker block; the caller
cannot override `config` (CompileOptions has no such field), and `config` is
always present with the defaults filling absent keys — for every caller
option. -/
theorem c7_config_merge (m mw : Int) (s : String) (opts : Option WorkerOpts) :
    pipelineConfig ⟨some (vObj [("config".data, vObj [("memory".data, vNum m)]),
        ("$worker".data, vObj [("config".data,
          vObj [("memory".data, vNum mw), ("env".data, vObj [("A".data, vStr s)])])])]),
      vUndef, vUndef⟩ opts =
      .ok [("memory".data, vNum mw), ("env".data, vObj [("A".data, vStr s)])] ∧
    pipelineConfig ⟨some (vObj [("config".data, vObj [("memory".data, vNum m)])]),
      vUndef, vUndef⟩ opts =
      .ok [("memory".data, vNum m), ("env".data, vObj [("NODE_ENV".data, vStr "production")])] ∧
    pipelineConfig ⟨some (vObj []), vUndef, vUndef⟩ opts =
      .ok [("memory".data, vNum 128),
        ("env".data, vObj [("NODE_ENV".data, vStr "production")])] := by
  obtain _ | ⟨n, rs⟩ := opts
  · refine ⟨?_, ?_, ?_⟩ <;>
      simp [pipelineConfig, extractWorkerMetadata, processMetadata, processEntries,
        processOneValue, stripQuotesL, squote, dquote, writeSpellings,
        applyContextHandler, applyWorkerHandler, applyListHandler, getProp, getKey,
        setKey, jsOr, assignAll, applyWorkerData, defaultConfig, finalConfig,
        spreadEntries, mergeSpread]
  · obtain _ | rs2 := rs <;> refine ⟨?_, ?_, ?_⟩ <;>
      simp [pipelineConfig, extractWorkerMetadata, processMetadata, processEntries,
        processOneValue, stripQuotesL, squote, dquote, writeSpellings,
        applyContextHandler, applyWorkerHandler, applyListHandler, getProp, getKey,
        setKey, jsOr, assignAll, applyWorkerData, defaultConfig, finalConfig,
        spreadEntries, mergeSpread]

/-- Claim C8: list values that are not already arrays are wrapped in a
one-element array (under the unprefixed `list` key, at any sigil of the
input key), and cloning preserves sequences exactly: scalar sequences are
reproduced verbatim — order kept, duplicates kept — and cloning never changes
length. -/
theorem c8_sequences_preserved :
    (∀ xs : List Value, (∀ x ∈ xs, isScalar x = true) → cloneArray xs = .ok xs) ∧
    (∀ xs ys : List Value, cloneArray xs = .ok ys → ys.length = xs.length) ∧
    (∀ v : Value, isScalar v = true →
      processMetadata (vObj [("list".data, v)]) = .ok [("list".data, vArr [v])]) ∧
    (∀ v : Value, isScalar v = true →
      processMetadata (vObj [("@list".data, v)]) =
        .ok [("@list".data, v), ("list".data, vArr [v]), ("$list".data, v)]) ∧
    (∀ xs : List Value, (∀ x ∈ xs, isScalar x = true) →
      processMetadata (vObj [("list".data, vArr xs)]) = .ok [("list".data, vArr xs)]) := by
  refine ⟨cloneArray_scalars, cloneArray_length, ?_, ?_, ?_⟩
  · intro v hv
    have h1 : processEntries [("list".data, v)] [] = .ok ([] ++ flatBlocks [("list".data, v)]) :=
      processEntries_flat [("list".data, v)] []
        (by intro kv hkv
            rw [List.mem_singleton] at hkv
            subst hkv
            exact ⟨hv, rfl, rfl, rfl, fun h2 => by simp [baseOf] at h2⟩)
        (by simp) (by intro kv _ s _; simp)
    have hfb : flatBlock "list".data v = [("list".data, vArr [v])] := rfl
    simp [processMetadata, h1, flatBlocks, hfb]
  · intro v hv
    have h1 : processEntries [("@list".data, v)] [] =
        .ok ([] ++ flatBlocks [("@list".data, v)]) :=
      processEntries_flat [("@list".data, v)] []
        (by intro kv hkv
            rw [List.mem_singleton] at hkv
            subst hkv
            exact ⟨hv, rfl, rfl, rfl, fun h2 => by simp [baseOf] at h2⟩)
        (by simp) (by intro kv _ s _; simp)
    have hfb : flatBlock "@list".data v = [("@list".data, v), ("list".data, vArr [v]),
        ('$' :: "list".data, v)] := rfl
    simp [processMetadata, h1, flatBlocks, hfb]
  · intro xs hxs
    have h1 := entryStep_list_arr_fresh xs [] hxs (by simp)
    simp [processMetadata, processEntries_cons, h1, processEntries_nil]

/-- Claim C8 witness: wrapping and exact reproduction at concrete inputs with
a duplicate element (no deduplication, no reordering). -/
theorem c8_witness :
    (∀ x ∈ [vStr "a", vStr "b", vStr "a"], isScalar x = true) ∧
    cloneArray [vStr "a", vStr "b", vStr "a"] = .ok [vStr "a", vStr "b", vStr "a"] ∧
    isScalar (vStr "x") = true ∧
    processMetadata (vObj [("list".data, vStr "x")]) =
      .ok [("list".data, vArr [vStr "x"])] ∧
    processMetadata (vObj [("list".data, vArr [vStr "a", vStr "b", vStr "a"])]) =
      .ok [("list".data, vArr [vStr "a", vStr "b", vStr "a"])] := by
  refine ⟨by decide, ?_, by decide, ?_, ?_⟩
  · exact c8_sequences_preserved.1 [vStr "a", vStr "b", vStr "a"] (by decide)
  · exact c8_sequences_preserved.2.2.1 (vStr "x") (by decide)
  · exact c8_sequences_preserved.2.2.2.2 [vStr "a", vStr "b", vStr "a"] (by decide)

/-- Claim C10 counterexample: an array is `typeof 'object'`, so it passes the
guard and is traversed via `Object.entries` — the result is not the empty
mapping. -/
theorem c10_counterexample :
    processMetadata (vArr [vBool true]) = .ok [("0".data, vBool true)] ∧
    ¬ processMetadata (vArr [vBool true]) = .ok ([] : Mapping) := by
  refine ⟨rfl, ?_⟩
  rw [show processMetadata (vArr [vBool true]) = .ok [("0".data, vBool true)] from rfl]
  simp

/-- Claim C10 (amended): every scalar top-level value — `null`, `undefined`,
booleans, numbers, strings — yields the empty mapping (arrays, being objects,
are instead traversed index-wise); consequently a document with absent
frontmatter data yields exactly the defaults, plus caller options when
given. -/
theorem c10_non_mapping_empty :
    (∀ v : Value, isScalar v = true → processMetadata v = .ok []) ∧
    extractWorkerMetadata ⟨none, vUndef, vUndef⟩ none =
      .ok [("name".data, vStr ""), ("routes".data, vArr []), ("config".data, defaultConfig)] ∧
    (∀ (X : String) (rs : List Value), X ≠ "" →
      extractWorkerMetadata ⟨none, vUndef, vUndef⟩ (some ⟨X, some rs⟩) =
        .ok [("name".data, vStr X), ("routes".data, vArr rs), ("config".data, defaultConfig)]) := by
  refine ⟨?_, rfl, ?_⟩
  · intro v hv
    cases v <;> simp_all [isScalar, processMetadata, truthy, typeofObject]
  · intro X rs hX
    simp [extractWorkerMetadata, processMetadata, processEntries_nil, truthy,
      typeofObject, jsOr, assignAll, setKey, getKey, hX]

/-- Claim C10 witness: `null` data and a concrete caller option. -/
theorem c10_witness :
    isScalar vNull = true ∧ processMetadata vNull = .ok [] ∧
    ("w" : String) ≠ "" ∧
    extractWorkerMetadata ⟨none, vUndef, vUndef⟩ (some ⟨"w", some [vStr "/r"]⟩) =
      .ok [("name".data, vStr "w"), ("routes".data, vArr [vStr "/r"]),
        ("config".data, defaultConfig)] := by
  exact ⟨rfl, c10_non_mapping_empty.1 vNull rfl, by decide,
    c10_non_mapping_empty.2.2 "w" [vStr "/r"] (by decide)⟩

end MdxldWorkers
